import Mathlib

/-!
Verification of the mdlayher/dhcp6 DHCPv6 library against its
natural-language specification.  The Go source is shallowly embedded:
byte slices become lists of natural numbers, the Options map becomes an
association list (Go map iteration order is treated as an arbitrary
permutation where a property depends on it), and fallible functions
return Except over an error enumeration mirroring the named errors of
the package.
-/

namespace Dhcp6

/-- Raw bytes, modelled as lists of natural numbers.  Every read in the
embedded parsers is guarded by an explicit length check, exactly as in
the source. -/
abbrev Bytes := List Nat

/-- The big-endian 16-bit encoding of a Go integer after conversion to
uint16, as performed by binary.BigEndian.PutUint16 combined with a
uint16 cast (src/buffer.go Write16; Go integer conversion keeps the low
16 bits). -/
def u16be (n : Nat) : Bytes := [n / 256 % 256, n % 256]

/-- Big-endian 16-bit read of two bytes starting at offset i, as
binary.BigEndian.Uint16 (src/buffer.go Read16). -/
def u16at (b : Bytes) (i : Nat) : Nat :=
  b.getD i 0 * 256 + b.getD (i + 1) 0

/-- Big-endian 32-bit read of four bytes starting at offset i, as
binary.BigEndian.Uint32. -/
def u32at (b : Bytes) (i : Nat) : Nat :=
  ((b.getD i 0 * 256 + b.getD (i + 1) 0) * 256 + b.getD (i + 2) 0) * 256
    + b.getD (i + 3) 0

/-- Named errors of the package, one constructor per distinct error
value used by the embedded functions (src/server.go, src/duid.go,
src/iaprefix.go, src/unnamed/part_001, src/unnamed/part_003,
src/statuscode.go, src/miscoptions.go io.ErrUnexpectedEOF). -/
inductive Err
  | invalidOptions
  | invalidPacket
  | unexpectedEOF
  | invalidDUID
  | unknownDUID
  | invalidDUIDLLT
  | invalidDUIDEN
  | invalidDUIDLL
  | invalidLifetimes
  | invalidIAAddrIP
  | invalidIAAddrLifetimes
  | invalidIAAddr
  | invalidIAPrefix
  | invalidIP
  | invalidStatusCode
  deriving DecidableEq, Repr

/-- Options is a map from option code to a list of raw values
(src/server.go, `type Options map[OptionCode][][]byte`).  The Go map is
modelled as an association list whose keys are pairwise distinct; the
order of entries stands for one iteration order of the map. -/
abbrev Options := List (Nat × List Bytes)

/-- AddRaw appends a raw value to the list held under a key
(src/server.go, `o[key] = append(o[key], value)`).  A missing key is
created; in the model a new key is appended at the end of the entry
list. -/
def addRaw : Options → Nat → Bytes → Options
  | [], k, v => [(k, [v])]
  | (k0, vs) :: rest, k, v =>
    if k0 = k then (k0, vs ++ [v]) :: rest else (k0, vs) :: addRaw rest k v

/-- Map indexing of the Go Options map, `o[key]`, yielding the nil slice
(empty list) when the key is absent. -/
def lookupCode : Options → Nat → List Bytes
  | [], _ => []
  | (k0, vs) :: rest, k => if k0 = k then vs else lookupCode rest k

/-- The keys of an Options value; distinctness of this list is the Go
map invariant. -/
def optKeys (o : Options) : List Nat := o.map Prod.fst

/-- DistinctKeys states the Go map invariant for the association-list
model: no option code appears in two entries. -/
def DistinctKeys (o : Options) : Prop := optKeys o |>.Nodup

instance (o : Options) : Decidable (DistinctKeys o) := by
  unfold DistinctKeys; infer_instance

/-- The multiset of (code, value) pairs of the map, in entry order; the
inner loop of Options.enumerate (src/server.go) before sorting. -/
def flattenOpts (o : Options) : List (Nat × Bytes) :=
  o.flatMap fun p => p.2.map fun v => (p.1, v)

/-- One insertion step of a stable insertion sort by option code. -/
def insertByCode (x : Nat × Bytes) : List (Nat × Bytes) → List (Nat × Bytes)
  | [] => [x]
  | y :: t => if x.1 ≤ y.1 then x :: y :: t else y :: insertByCode x t

/-- The stable insertion sort by option code.  This is NOT a model of
sort.Sort itself (which is unstable); it is the insertionSort routine
of the Go standard library sort package (sort.go), the final phase that
sort.Sort runs on slices of at most 12 elements, and it also serves
below as one admissible behaviour of sort.Sort when a witness needs a
concrete sorted permutation. -/
def sortByCode : List (Nat × Bytes) → List (Nat × Bytes)
  | [] => []
  | x :: t => insertByCode x (sortByCode t)

/-- Ordering of option records by their code, the Less of byOptionCode
(src/server.go line 398). -/
def keyLE (p q : Nat × Bytes) : Prop := p.1 ≤ q.1

/-- The contract that Go documents for sort.Sort and that byOptionCode
(src/server.go line 395) supplies the ordering for: the result is a
permutation of the input that is sorted by option code.  sort.Sort is
not guaranteed to be stable (sort.Stable exists separately and is not
used by this package), so Options.enumerate is modelled relative to an
arbitrary function satisfying this contract. -/
def GoSortSpec (f : List (Nat × Bytes) → List (Nat × Bytes)) : Prop :=
  ∀ l, (f l).Perm l ∧ (f l).Pairwise keyLE

/-- Options.enumerate (src/server.go line 404): every (code, value)
pair of the map in iteration order, handed to sort.Sort, whose
behaviour is the parameter f. -/
def enumerateWith (f : List (Nat × Bytes) → List (Nat × Bytes))
    (o : Options) : List (Nat × Bytes) :=
  f (flattenOpts o)

/-- optslice.marshal (src/server.go): for each option emit 2 bytes of
code, 2 bytes of length, then the data. -/
def optsliceMarshal (l : List (Nat × Bytes)) : Bytes :=
  l.flatMap fun p => u16be p.1 ++ u16be p.2.length ++ p.2

/-- Options.Marshal (src/server.go line 325): enumerate then marshal,
relative to the sort.Sort behaviour f. -/
def optionsMarshalWith (f : List (Nat × Bytes) → List (Nat × Bytes))
    (o : Options) : Bytes :=
  optsliceMarshal (enumerateWith f o)

/-- Swap of the elements at positions i and j, data.Swap of the Go sort
package specialised to byOptionCode (src/server.go line 399). -/
def swapAt (l : List (Nat × Bytes)) (i j : Nat) : List (Nat × Bytes) :=
  (l.set i (l.getD j (0, []))).set j (l.getD i (0, []))

/-- The gap-6 shell pass of the Go standard-library sort (sort.go,
quickSort, in the Go releases contemporary with this repository, 1.6
through 1.18): for i from 6 upward, the elements at i-6 and i are
swapped when the one at i compares strictly less. -/
def shellPass6 (l : List (Nat × Bytes)) : List (Nat × Bytes) :=
  (List.range l.length).foldl
    (fun acc i =>
      if 6 ≤ i ∧ (acc.getD i (0, [])).1 < (acc.getD (i - 6) (0, [])).1 then
        swapAt acc (i - 6) i
      else acc) l

/-- sort.Sort on a byOptionCode slice of at most 12 elements, exactly
as the Go standard library executes it (sort.go, quickSort: the
`for b-a > 12` loop body never runs, leaving one gap-6 shell pass
followed by insertionSort). -/
def goSortSmall (l : List (Nat × Bytes)) : List (Nat × Bytes) :=
  sortByCode (shellPass6 l)

/-- The loop of Options.Unmarshal (src/server.go) carrying the options
map built so far.  While at least 4 bytes remain: read a 2-byte code
and a 2-byte length; a zero length skips to the next iteration; then
consume length bytes of data (failing with ErrInvalidOptions when fewer
remain) and AddRaw the pair.  Any trailing bytes after the loop are
ErrInvalidOptions. -/
def optionsUnmarshalLoop : Bytes → Options → Except Err Options
  | b, o =>
    if h4 : 4 ≤ b.length then
      let code := u16at b 0
      let len := u16at b 2
      let rest := b.drop 4
      if len = 0 then
        optionsUnmarshalLoop rest o
      else if hle : len ≤ rest.length then
        optionsUnmarshalLoop (rest.drop len) (addRaw o code (rest.take len))
      else .error .invalidOptions
    else if b.length = 0 then .ok o else .error .invalidOptions
  termination_by b => b.length
  decreasing_by
    all_goals simp only [List.length_drop]
    all_goals omega

/-- Options.Unmarshal (src/server.go): start from the empty map and run
the read loop.  The parseOptions variant returning (Options, error)
(src/unnamed/part_007 line 534, src/options.go line 741) has the same
semantics: its loop condition Len() > 3 coincides with Len() >= 4, its
buf.Next(length) followed by the short-data check coincides with the
guarded consume, and both record options with AddRaw and reject
trailing bytes. -/
def optionsUnmarshal (b : Bytes) : Except Err Options :=
  optionsUnmarshalLoop b []

/-- The parseOptions variant returning a plain []option slice
(src/options.go line 127, bytes.Buffer based): while more than 4 bytes
remain, read code and length; a zero length skips; data shorter than
the declared length is discarded (continue) rather than an error; no
trailing-bytes check. -/
def parseOptionsList (b : Bytes) : List (Nat × Bytes) :=
  if 5 ≤ b.length then
    if u16at b 2 = 0 then parseOptionsList (b.drop 4)
    else if (b.drop 4).length < u16at b 2 then
      parseOptionsList ((b.drop 4).drop (u16at b 2))
    else (u16at b 0, (b.drop 4).take (u16at b 2)) ::
      parseOptionsList ((b.drop 4).drop (u16at b 2))
  else []
  termination_by b.length
  decreasing_by
    all_goals simp only [List.length_drop]
    all_goals omega

/-- Modelled from the spec: the Options-map returning, error-free
parseOptions used by parseIAAddr in src/unnamed/part_003,
src/unnamed/part_001 and src/iaaddr.go is not itself under src/ (only
the []option variant at src/options.go line 127 and the expectations of
Test_parseOptions in src/options_test.go are).  Per those tests it
tolerates malformed data, collecting the well-formed option records of
the same scan into a map with AddRaw. -/
def parseOptionsTolerant (b : Bytes) : Options :=
  (parseOptionsList b).foldl (fun o p => addRaw o p.1 p.2) []

/-- The Go uint16 conversion of a signed integer: the low 16 bits, that
is the Euclidean remainder modulo 65536. -/
def goUint16OfInt (n : Int) : Nat := (n.emod 65536).toNat

/-- The big-endian 32-bit encoding after a Go uint32 conversion, as
binary.BigEndian.PutUint32. -/
def u32be (n : Nat) : Bytes :=
  [n / 16777216 % 256, n / 65536 % 256, n / 256 % 256, n % 256]

/-- DUID, the polymorphic DHCP Unique Identifier of src/duid.go,
modelled as a tagged variant of the three struct types the parser can
produce (DUIDLLT, DUIDEN, DUIDLL).  Time is kept as the raw 32-bit
seconds value read from the wire (the source stores it multiplied by
time.Second). -/
inductive DUID
  | llt (hardwareType : Nat) (timeSec : Nat) (hardwareAddr : Bytes)
  | en (enterpriseNumber : Nat) (identifier : Bytes)
  | ll (hardwareType : Nat) (hardwareAddr : Bytes)
  deriving DecidableEq, Repr

/-- parseDUIDLLT (src/duid.go): needs at least 8 bytes and tag 1, else
errInvalidDUIDLLT. -/
def parseDUIDLLT (b : Bytes) : Except Err DUID :=
  if b.length < 8 then .error .invalidDUIDLLT
  else if u16at b 0 ≠ 1 then .error .invalidDUIDLLT
  else .ok (.llt (u16at b 2) (u32at b 4) (b.drop 8))

/-- parseDUIDEN (src/duid.go): needs at least 6 bytes and tag 2, else
errInvalidDUIDEN. -/
def parseDUIDEN (b : Bytes) : Except Err DUID :=
  if b.length < 6 then .error .invalidDUIDEN
  else if u16at b 0 ≠ 2 then .error .invalidDUIDEN
  else .ok (.en (u32at b 2) (b.drop 6))

/-- parseDUIDLL (src/duid.go): needs at least 4 bytes and tag 3, else
errInvalidDUIDLL. -/
def parseDUIDLL (b : Bytes) : Except Err DUID :=
  if b.length < 4 then .error .invalidDUIDLL
  else if u16at b 0 ≠ 3 then .error .invalidDUIDLL
  else .ok (.ll (u16at b 2) (b.drop 4))

/-- parseDUID (src/duid.go line 322): fewer than 2 bytes is
errInvalidDUID; otherwise the Go switch on the 2-byte tag dispatches to
the LLT, EN or LL parser; every other tag (including 4) is
errUnknownDUID. -/
def parseDUID (b : Bytes) : Except Err DUID :=
  if b.length < 2 then .error .invalidDUID
  else if u16at b 0 = 1 then parseDUIDLLT b
  else if u16at b 0 = 2 then parseDUIDEN b
  else if u16at b 0 = 3 then parseDUIDLL b
  else .error .unknownDUID

/-- ElapsedTime.MarshalBinary (src/miscoptions.go): the stored duration
(an int64 count of nanoseconds) is divided by 10 and by one millisecond
with Go integer division, converted to uint16 (low 16 bits), and
written big-endian. -/
def elapsedTimeMarshal (t : Int) : Bytes :=
  u16be (goUint16OfInt (Int.tdiv (Int.tdiv t 10) 1000000))

/-- ElapsedTime.UnmarshalBinary (src/miscoptions.go): exactly 2 bytes
or io.ErrUnexpectedEOF; the big-endian value counts hundredths of a
second and is stored as value x 10 milliseconds of nanoseconds. -/
def elapsedTimeUnmarshal (b : Bytes) : Except Err Int :=
  if b.length = 2 then .ok ((u16at b 0 : Int) * 10 * 1000000)
  else .error .unexpectedEOF

/-- NewStatusCode (src/statuscode.go): a 2-byte big-endian status code
followed by the message bytes. -/
def NewStatusCode (code : Nat) (message : Bytes) : Bytes :=
  u16be code ++ message

/-- parseStatusCode (src/statuscode.go): fewer than 2 bytes is
errInvalidStatusCode, otherwise the input bytes themselves are the
StatusCode value. -/
def parseStatusCode (s : Bytes) : Except Err Bytes :=
  if s.length < 2 then .error .invalidStatusCode else .ok s

/-- StatusCode.Code (src/statuscode.go): Status(-1) when shorter than
2 bytes, otherwise the big-endian value of the first two bytes.  Status
is a Go uint16, so the Status(-1) sentinel is the value 65535. -/
def statusCodeCode (s : Bytes) : Nat :=
  if s.length < 2 then goUint16OfInt (-1) else u16at s 0

/-- StatusCode.Message (src/statuscode.go) returns string(s[2:]); the
Go slice expression is in bounds exactly when the value has at least
2 bytes. -/
def statusCodeMessage (s : Bytes) : Bytes := s.drop 2

/-- The result of the part_001 generation of parseIAAddr: IP, the two
lifetimes (raw 32-bit seconds values; the source stores them multiplied
by time.Second) and the nested options. -/
structure IAAddr where
  ip : Bytes
  preferredLifetime : Nat
  validLifetime : Nat
  options : Options
  deriving DecidableEq, Repr

/-- NewIAAddr (src/unnamed/part_003 line 43): an IP that is not exactly
16 bytes (or whose To16 is nil) is ErrInvalidIAAddrIP; a preferred
lifetime greater than the valid lifetime is ErrInvalidIAAddrLifetimes;
otherwise the 24-byte body is built from the IP and the two lifetimes
in seconds.  Lifetimes are modelled in nanoseconds like Go
time.Duration. -/
def NewIAAddr (ip : Bytes) (preferred valid : Nat) (options : Options) :
    Except Err (Bytes × Options) :=
  if ip.length ≠ 16 then .error .invalidIAAddrIP
  else if valid < preferred then .error .invalidIAAddrLifetimes
  else .ok (ip ++ u32be (preferred / 1000000000) ++ u32be (valid / 1000000000), options)

/-- parseIAAddr of the src/unnamed/part_001 generation: fewer than 24
bytes is errInvalidIAAddr; lifetimes are read as 32-bit second counts;
a preferred lifetime greater than the valid one is
ErrInvalidIAAddrLifetimes; the remainder parses as options. -/
def parseIAAddr (b : Bytes) : Except Err IAAddr :=
  if b.length < 24 then .error .invalidIAAddr
  else if u32at b 20 < u32at b 16 then .error .invalidIAAddrLifetimes
  else .ok ⟨b.take 16, u32at b 16, u32at b 20, parseOptionsTolerant (b.drop 24)⟩

/-- parseIAAddr of the src/unnamed/part_003 line 135 and src/iaaddr.go
line 93 generation: fewer than 24 bytes is errInvalidIAAddr; otherwise
it succeeds, keeping the first 24 bytes raw and parsing the remainder
as options.  No lifetime check is performed. -/
def parseIAAddrRawSlice (b : Bytes) : Except Err (Bytes × Options) :=
  if b.length < 24 then .error .invalidIAAddr
  else .ok (b.take 24, parseOptionsTolerant (b.drop 24))

/-- IAPrefix (src/iaprefix.go): lifetimes (raw 32-bit second counts),
prefix length, 16-byte prefix and nested options. -/
structure IAPrefix where
  preferredLifetime : Nat
  validLifetime : Nat
  prefixLength : Nat
  prefixAddr : Bytes
  options : Options
  deriving DecidableEq, Repr

/-- Go net.IP.To4 returns nil unless the address is a 4-byte IPv4
address or a 16-byte IPv4-mapped address (10 zero bytes then two 0xff
bytes). -/
def goTo4IsNil (ip : Bytes) : Bool :=
  !(ip.length = 4 ||
    (ip.length = 16 && decide (ip.take 10 = List.replicate 10 0) &&
      ip.getD 10 0 = 255 && ip.getD 11 0 = 255))

/-- NewIAPrefix (src/iaprefix.go line 65): a preferred lifetime greater
than the valid one is ErrInvalidLifetimes; a prefix whose To4 is not
nil is ErrInvalidIP; otherwise the struct is built.  Lifetimes are
modelled in nanoseconds like Go time.Duration. -/
def NewIAPrefix (preferred valid : Nat) (prefixLength : Nat) (prefixAddr : Bytes)
    (options : Options) : Except Err IAPrefix :=
  if valid < preferred then .error .invalidLifetimes
  else if ¬ goTo4IsNil prefixAddr then .error .invalidIP
  else .ok ⟨preferred, valid, prefixLength, prefixAddr, options⟩

/-- parseIAPrefix (src/iaprefix.go line 111): fewer than 25 bytes is
errInvalidIAPrefix; lifetimes are read as 32-bit second counts; a
preferred lifetime greater than the valid one is ErrInvalidLifetimes;
the remainder parses with the error-returning parseOptions, whose
errors propagate. -/
def parseIAPrefix (b : Bytes) : Except Err IAPrefix :=
  if b.length < 25 then .error .invalidIAPrefix
  else if u32at b 4 < u32at b 0 then .error .invalidLifetimes
  else
    match optionsUnmarshal (b.drop 25) with
    | .error e => .error e
    | .ok opts => .ok ⟨u32at b 0, u32at b 4, b.getD 8 0, (b.drop 9).take 16, opts⟩

/-- The length-checked byte cursor of src/buffer.go.  Reads both return
a value and the buffer state after the call, making the mutation of the
Go receiver explicit. -/
structure buffer where
  data : Bytes
  deriving DecidableEq, Repr

/-- buffer.consume (src/buffer.go line 41): take n bytes when
available; otherwise report failure and leave the buffer unchanged. -/
def buffer.consume (b : buffer) (n : Nat) : Option Bytes × buffer :=
  if n ≤ b.data.length then (some (b.data.take n), ⟨b.data.drop n⟩) else (none, b)

/-- buffer.Read8 (src/buffer.go): one byte, or zero on underflow. -/
def buffer.Read8 (b : buffer) : Nat × buffer :=
  match b.consume 1 with
  | (some v, b2) => (v.getD 0 0, b2)
  | (none, b2) => (0, b2)

/-- buffer.Read16 (src/buffer.go): big-endian 16-bit value, or zero on
underflow. -/
def buffer.Read16 (b : buffer) : Nat × buffer :=
  match b.consume 2 with
  | (some v, b2) => (u16at v 0, b2)
  | (none, b2) => (0, b2)

/-- buffer.Read32 (src/buffer.go): big-endian 32-bit value, or zero on
underflow. -/
def buffer.Read32 (b : buffer) : Nat × buffer :=
  match b.consume 4 with
  | (some v, b2) => (u32at v 0, b2)
  | (none, b2) => (0, b2)

/-- Big-endian 64-bit read of the first eight bytes. -/
def u64at (b : Bytes) (i : Nat) : Nat :=
  u32at b i * 4294967296 + u32at b (i + 4)

/-- buffer.Read64 (src/buffer.go): big-endian 64-bit value, or zero on
underflow. -/
def buffer.Read64 (b : buffer) : Nat × buffer :=
  match b.consume 8 with
  | (some v, b2) => (u64at v 0, b2)
  | (none, b2) => (0, b2)

/-- One result of ipv6.PacketConn.ReadFrom as seen by Server.Serve
(src/server.go line 147): either a read error, or a datagram together
with the optional control-message interface index. -/
structure ReadEvent where
  isErr : Bool
  cm : Option Nat
  data : Bytes
  deriving DecidableEq, Repr

/-- The filter condition of the Serve loop (src/server.go line 161):
`cm != nil && cm.IfIndex != s.ifIndex`. -/
def dropEvent (ifIndex : Nat) (e : ReadEvent) : Bool :=
  match e.cm with
  | some i => i != ifIndex
  | none => false

/-- The Serve loop of src/server.go line 147 over a sequence of read
results, returning the datagrams for which a conn is created and a
handler goroutine dispatched.  A read error ends the loop; a control
message whose interface index differs from the configured one is
skipped with continue; otherwise newConn (which always returns a nil
error) is called and the datagram is served. -/
def Serve (ifIndex : Nat) : List ReadEvent → List ReadEvent
  | [] => []
  | e :: rest =>
    if e.isErr then []
    else if dropEvent ifIndex e then Serve ifIndex rest
    else e :: Serve ifIndex rest

/-- A DHCPv6 packet: message type, 3-byte transaction ID, options. -/
structure Packet where
  messageType : Nat
  transactionID : Bytes
  options : Options
  deriving DecidableEq, Repr

/-- Modelled from the spec: the current-generation Packet unmarshal
function is not under src/ (only older parsePacket generations at
src/unnamed/part_019 line 53 and callers such as
RelayMessageOption.SetClientServerMessage are).  Per spec section 4.4,
unmarshal is InvalidPacket when the input is shorter than 4 bytes and
InvalidPacket when decoding of the options region after the 4-byte
header fails; the options decoder is the source-translated
Options.Unmarshal.  The same wrapping is visible in src on
RelayMessage.UnmarshalBinary (src/unnamed/part_000 line 94). -/
def packetUnmarshal (b : Bytes) : Except Err Packet :=
  if b.length < 4 then .error .invalidPacket
  else
    match optionsUnmarshal (b.drop 4) with
    | .error _ => .error .invalidPacket
    | .ok opts => .ok ⟨b.getD 0 0, (b.drop 1).take 3, opts⟩

/-- Folding option records into a map with AddRaw, as the unmarshal loop
does. -/
def groupRecs (recs : List (Nat × Bytes)) (acc : Options) : Options :=
  recs.foldl (fun o p => addRaw o p.1 p.2) acc

/-- A record fit for the wire: code within 16 bits, data nonempty and
shorter than 65536 bytes. -/
def ValidRec (p : Nat × Bytes) : Prop :=
  p.1 < 65536 ∧ p.2 ≠ [] ∧ p.2.length < 65536

/-! Lemmas about the by-code insertion sort used to model
sort.Sort(byOptionCode(...)). -/

theorem insertByCode_perm (x : Nat × Bytes) (l : List (Nat × Bytes)) :
    (insertByCode x l).Perm (x :: l) := by
  induction l with
  | nil => simp [insertByCode]
  | cons y t ih =>
    by_cases h : x.1 ≤ y.1
    · simp [insertByCode, h]
    · simp only [insertByCode, if_neg h]
      exact (ih.cons y).trans (List.Perm.swap x y t)

theorem sortByCode_perm (l : List (Nat × Bytes)) : (sortByCode l).Perm l := by
  induction l with
  | nil => simp [sortByCode]
  | cons x t ih =>
    exact (insertByCode_perm x (sortByCode t)).trans (ih.cons x)

theorem insertByCode_pairwise (x : Nat × Bytes) (l : List (Nat × Bytes))
    (h : l.Pairwise keyLE) : (insertByCode x l).Pairwise keyLE := by
  induction l with
  | nil => simp [insertByCode, List.pairwise_singleton]
  | cons y t ih =>
    rcases List.pairwise_cons.mp h with ⟨hy, ht⟩
    by_cases hxy : x.1 ≤ y.1
    · simp only [insertByCode, if_pos hxy]
      refine List.pairwise_cons.mpr ⟨?_, h⟩
      intro q hq
      rcases List.mem_cons.mp hq with hh | hh
      · subst hh; exact hxy
      · exact le_trans hxy (hy q hh)
    · simp only [insertByCode, if_neg hxy]
      refine List.pairwise_cons.mpr ⟨?_, ih ht⟩
      intro q hq
      have hmem : q ∈ x :: t := (insertByCode_perm x t).mem_iff.mp hq
      rcases List.mem_cons.mp hmem with hh | hh
      · subst hh; exact le_of_not_le hxy
      · exact hy q hh

theorem sortByCode_pairwise (l : List (Nat × Bytes)) :
    (sortByCode l).Pairwise keyLE := by
  induction l with
  | nil => simp [sortByCode]
  | cons x t ih => exact insertByCode_pairwise x (sortByCode t) ih

theorem insertByCode_filter (x : Nat × Bytes) (l : List (Nat × Bytes)) (k : Nat) :
    (insertByCode x l).filter (fun p => p.1 = k) =
      if x.1 = k then x :: l.filter (fun p => p.1 = k)
      else l.filter (fun p => p.1 = k) := by
  induction l with
  | nil => by_cases h : x.1 = k <;> simp [insertByCode, List.filter_cons, h]
  | cons y t ih =>
    simp only [insertByCode]
    by_cases hxy : x.1 ≤ y.1
    · rw [if_pos hxy]
      by_cases hx : x.1 = k <;> simp [List.filter_cons, hx]
    · have hlt : y.1 < x.1 := lt_of_not_le hxy
      rw [if_neg hxy]
      by_cases hy : y.1 = k
      · have hx : ¬ x.1 = k := by omega
        simp [List.filter_cons, hy, hx, ih]
      · by_cases hx : x.1 = k <;> simp [List.filter_cons, hy, hx, ih]

theorem sortByCode_filter (l : List (Nat × Bytes)) (k : Nat) :
    (sortByCode l).filter (fun p => p.1 = k) = l.filter (fun p => p.1 = k) := by
  induction l with
  | nil => simp [sortByCode]
  | cons x t ih =>
    by_cases hx : x.1 = k <;>
      simp [sortByCode, insertByCode_filter, hx, List.filter_cons, ih]

/-- The head of a list sorted by code has a code no greater than any
element of the list. -/
theorem sorted_head_le (q : Nat × Bytes) (t : List (Nat × Bytes))
    (h : (q :: t).Pairwise keyLE) : ∀ r ∈ q :: t, q.1 ≤ r.1 := by
  intro r hr
  rcases List.mem_cons.mp hr with hh | hh
  · subst hh; exact le_refl _
  · exact (List.pairwise_cons.mp h).1 r hh

/-- Two lists that are sorted by code and agree on every per-code filter
are equal.  This is the uniqueness of the stable sorted arrangement. -/
theorem sorted_filter_ext : ∀ (l1 l2 : List (Nat × Bytes)),
    l1.Pairwise keyLE → l2.Pairwise keyLE →
    (∀ k, l1.filter (fun p => p.1 = k) = l2.filter (fun p => p.1 = k)) →
    l1 = l2 := by
  intro l1
  induction l1 with
  | nil =>
    intro l2 _ _ hf
    cases l2 with
    | nil => rfl
    | cons q t2 =>
      exfalso
      have h := hf q.1
      simp [List.filter_cons] at h
  | cons p t1 ih =>
    intro l2 h1 h2 hf
    cases l2 with
    | nil =>
      exfalso
      have h := hf p.1
      simp [List.filter_cons] at h
    | cons q t2 =>
      have hq_min := sorted_head_le q t2 h2
      have hp_min := sorted_head_le p t1 h1
      have hq_mem : q ∈ p :: t1 := by
        have hmem : q ∈ (p :: t1).filter (fun r => r.1 = q.1) := by
          rw [hf q.1]
          simp [List.filter_cons]
        exact List.mem_of_mem_filter hmem
      have hp_mem : p ∈ q :: t2 := by
        have hmem : p ∈ (q :: t2).filter (fun r => r.1 = p.1) := by
          rw [← hf p.1]
          simp [List.filter_cons]
        exact List.mem_of_mem_filter hmem
      have hpq : p.1 = q.1 := le_antisymm (hp_min q hq_mem) (hq_min p hp_mem)
      have hfilter := hf p.1
      rw [List.filter_cons, List.filter_cons, if_pos (by simp), if_pos (by simp [hpq])]
        at hfilter
      have hhead : p = q := (List.cons.injEq _ _ _ _ ▸ hfilter).1
      have htail : ∀ k, t1.filter (fun r => r.1 = k) = t2.filter (fun r => r.1 = k) := by
        intro k
        by_cases hk : k = p.1
        · subst hk
          exact (List.cons.injEq _ _ _ _ ▸ hfilter).2
        · have h := hf k
          rw [List.filter_cons, List.filter_cons,
            if_neg (by simp; omega), if_neg (by simp; omega)] at h
          exact h
      rw [hhead, ih t2 (List.pairwise_cons.mp h1).2 (List.pairwise_cons.mp h2).2 htail]


/-! Lemmas about the association-list model of the Options map. -/

theorem lookupCode_addRaw (o : Options) (k0 k : Nat) (v : Bytes) :
    lookupCode (addRaw o k0 v) k =
      if k0 = k then lookupCode o k ++ [v] else lookupCode o k := by
  induction o with
  | nil =>
    by_cases h : k0 = k <;> simp [addRaw, lookupCode, h]
  | cons e rest ih =>
    obtain ⟨ke, vs⟩ := e
    by_cases he : ke = k0
    · subst he
      by_cases h : ke = k <;> simp [addRaw, lookupCode, h]
    · by_cases h : ke = k
      · subst h
        have hne : ¬ k0 = ke := fun hh => he hh.symm
        simp [addRaw, lookupCode, he, hne]
      · simp [addRaw, lookupCode, he, h, ih]

theorem optKeys_addRaw_mem (o : Options) (k0 : Nat) (v : Bytes)
    (h : k0 ∈ optKeys o) : optKeys (addRaw o k0 v) = optKeys o := by
  induction o with
  | nil => simp [optKeys] at h
  | cons e rest ih =>
    obtain ⟨ke, vs⟩ := e
    by_cases he : ke = k0
    · simp [addRaw, optKeys, he]
    · have hmem : k0 ∈ optKeys rest := by
        simp [optKeys] at h
        rcases h with h | h
        · exact absurd h.symm he
        · simpa [optKeys] using h
      simp [addRaw, optKeys, he]
      simpa [optKeys] using ih hmem

theorem optKeys_addRaw_not_mem (o : Options) (k0 : Nat) (v : Bytes)
    (h : k0 ∉ optKeys o) : optKeys (addRaw o k0 v) = optKeys o ++ [k0] := by
  induction o with
  | nil => simp [addRaw, optKeys]
  | cons e rest ih =>
    obtain ⟨ke, vs⟩ := e
    have hne : ¬ ke = k0 := by
      intro hh
      exact h (by simp [optKeys, hh])
    have hrest : k0 ∉ optKeys rest := by
      intro hh
      exact h (by simp [optKeys]; right; simpa [optKeys] using hh)
    simp [addRaw, optKeys, hne]
    simpa [optKeys] using ih hrest

theorem distinctKeys_addRaw (o : Options) (k0 : Nat) (v : Bytes)
    (h : DistinctKeys o) : DistinctKeys (addRaw o k0 v) := by
  by_cases hmem : k0 ∈ optKeys o
  · unfold DistinctKeys
    rw [optKeys_addRaw_mem o k0 v hmem]
    exact h
  · unfold DistinctKeys
    rw [optKeys_addRaw_not_mem o k0 v hmem]
    unfold DistinctKeys at h
    simpa [List.nodup_append] using ⟨h, fun hh => hmem hh⟩

theorem lookupCode_eq_nil_of_not_mem (o : Options) (k : Nat)
    (h : k ∉ optKeys o) : lookupCode o k = [] := by
  induction o with
  | nil => simp [lookupCode]
  | cons e rest ih =>
    obtain ⟨ke, vs⟩ := e
    have hne : ¬ ke = k := by
      intro hh
      exact h (by simp [optKeys, hh])
    have hrest : k ∉ optKeys rest := by
      intro hh
      exact h (by simp [optKeys]; right; simpa [optKeys] using hh)
    simp [lookupCode, hne, ih hrest]

theorem flattenOpts_cons (ke : Nat) (vs : List Bytes) (rest : Options) :
    flattenOpts ((ke, vs) :: rest) =
      vs.map (fun v => (ke, v)) ++ flattenOpts rest := by
  simp [flattenOpts]

theorem filter_flattenOpts_not_mem (o : Options) (k : Nat)
    (h : k ∉ optKeys o) :
    (flattenOpts o).filter (fun p => p.1 = k) = [] := by
  induction o with
  | nil => simp [flattenOpts]
  | cons e rest ih =>
    obtain ⟨ke, vs⟩ := e
    have hne : ¬ ke = k := by
      intro hh
      exact h (by simp [optKeys, hh])
    have hrest : k ∉ optKeys rest := by
      intro hh
      exact h (by simp [optKeys]; right; simpa [optKeys] using hh)
    rw [flattenOpts_cons, List.filter_append, ih hrest]
    simp [List.filter_map, hne, List.filter_eq_nil_iff]

theorem filter_flattenOpts (o : Options) (k : Nat) (h : DistinctKeys o) :
    (flattenOpts o).filter (fun p => p.1 = k) =
      (lookupCode o k).map (fun v => (k, v)) := by
  induction o with
  | nil => simp [flattenOpts, lookupCode]
  | cons e rest ih =>
    obtain ⟨ke, vs⟩ := e
    have hd : DistinctKeys rest := by
      unfold DistinctKeys at h ⊢
      simpa [optKeys] using (List.nodup_cons.mp h).2
    by_cases hke : ke = k
    · subst hke
      have hnot : ke ∉ optKeys rest := by
        unfold DistinctKeys at h
        simpa [optKeys] using (List.nodup_cons.mp h).1
      have hlook : lookupCode ((ke, vs) :: rest) ke = vs := by simp [lookupCode]
      rw [flattenOpts_cons, List.filter_append,
        filter_flattenOpts_not_mem rest ke hnot, hlook, List.append_nil,
        List.filter_map]
      congr 1
      rw [List.filter_eq_self]
      intro a _
      simp
    · rw [flattenOpts_cons, List.filter_append]
      have hmap : (vs.map (fun v => (ke, v))).filter (fun p => p.1 = k) = [] := by
        simp [List.filter_map, hke, List.filter_eq_nil_iff]
      rw [hmap, ih hd]
      simp [lookupCode, hke]

/-! Lemmas about grouping parsed records back into an Options map. -/

theorem lookupCode_groupRecs (recs : List (Nat × Bytes)) :
    ∀ (acc : Options) (k : Nat),
      lookupCode (groupRecs recs acc) k =
        lookupCode acc k ++ (recs.filter (fun p => p.1 = k)).map Prod.snd := by
  induction recs with
  | nil => intro acc k; simp [groupRecs]
  | cons p t ih =>
    intro acc k
    have hstep : groupRecs (p :: t) acc = groupRecs t (addRaw acc p.1 p.2) := by
      simp [groupRecs]
    rw [hstep, ih, lookupCode_addRaw, List.filter_cons]
    by_cases hp : p.1 = k
    · rw [if_pos hp, if_pos (by simp [hp])]
      simp
    · rw [if_neg hp, if_neg (by simp [hp])]

theorem distinctKeys_groupRecs (recs : List (Nat × Bytes)) :
    ∀ acc : Options, DistinctKeys acc → DistinctKeys (groupRecs recs acc) := by
  induction recs with
  | nil => intro acc h; simpa [groupRecs] using h
  | cons p t ih =>
    intro acc h
    have hstep : groupRecs (p :: t) acc = groupRecs t (addRaw acc p.1 p.2) := by
      simp [groupRecs]
    rw [hstep]
    exact ih _ (distinctKeys_addRaw acc p.1 p.2 h)

/-! Lemmas connecting marshaled record bytes back to the unmarshal
loop. -/

theorem u16at_append_u16be (n : Nat) (rest : Bytes) (h : n < 65536) :
    u16at (u16be n ++ rest) 0 = n := by
  have hsplit : u16be n ++ rest = (n / 256 % 256) :: ((n % 256) :: rest) := by
    simp [u16be]
  rw [hsplit]
  simp only [u16at, List.getD_cons_zero, List.getD_cons_succ]
  omega

theorem optsliceMarshal_cons (c : Nat) (d : Bytes) (t : List (Nat × Bytes)) :
    optsliceMarshal ((c, d) :: t) =
      u16be c ++ u16be d.length ++ d ++ optsliceMarshal t := by
  simp [optsliceMarshal]

theorem unmarshalLoop_marshal (recs : List (Nat × Bytes)) :
    ∀ acc : Options, (∀ p ∈ recs, ValidRec p) →
      optionsUnmarshalLoop (optsliceMarshal recs) acc = .ok (groupRecs recs acc) := by
  induction recs with
  | nil =>
    intro acc _
    rw [optionsUnmarshalLoop]
    simp [optsliceMarshal, groupRecs]
  | cons p t ih =>
    intro acc hv
    obtain ⟨c, d⟩ := p
    have hvp : ValidRec (c, d) := hv _ (by simp)
    obtain ⟨hc, hd, hdl⟩ := hvp
    have hdlen : 0 < d.length := List.length_pos.mpr hd
    rw [optsliceMarshal_cons]
    have hB : u16be c ++ u16be d.length ++ d ++ optsliceMarshal t =
        u16be c ++ (u16be d.length ++ (d ++ optsliceMarshal t)) := by
      simp [List.append_assoc]
    rw [optionsUnmarshalLoop]
    have hlen4 : 4 ≤ (u16be c ++ u16be d.length ++ d ++ optsliceMarshal t).length := by
      simp [u16be]
    rw [dif_pos hlen4]
    have hcode : u16at (u16be c ++ u16be d.length ++ d ++ optsliceMarshal t) 0 = c := by
      rw [hB]
      exact u16at_append_u16be c _ hc
    have hlenval : u16at (u16be c ++ u16be d.length ++ d ++ optsliceMarshal t) 2 =
        d.length := by
      have h2 : (u16be c ++ u16be d.length ++ d ++ optsliceMarshal t) =
          u16be c ++ (u16be d.length ++ (d ++ optsliceMarshal t)) := hB
      rw [h2]
      have : ∀ (a0 a1 : Nat) (rest2 : Bytes),
          u16at (a0 :: a1 :: rest2) 2 = u16at rest2 0 := by
        intro a0 a1 rest2
        simp [u16at, List.getD]
      rw [show u16be c ++ (u16be d.length ++ (d ++ optsliceMarshal t)) =
        (c / 256 % 256) :: (c % 256) :: (u16be d.length ++ (d ++ optsliceMarshal t))
        from by simp [u16be]]
      rw [this]
      exact u16at_append_u16be d.length _ hdl
    have hdrop : (u16be c ++ u16be d.length ++ d ++ optsliceMarshal t).drop 4 =
        d ++ optsliceMarshal t := by
      rw [hB]
      have hl : (u16be c ++ u16be d.length).length = 4 := by simp [u16be]
      rw [← List.append_assoc, ← List.append_assoc]
      rw [List.append_assoc (u16be c) (u16be d.length)]
      rw [show (4 : Nat) = (u16be c ++ u16be d.length).length from hl.symm]
      rw [← List.append_assoc]
      exact List.drop_left _ _
    rw [hcode, hlenval, hdrop]
    rw [if_neg (by omega)]
    have htk : d.length ≤ (d ++ optsliceMarshal t).length := by
      simp
    rw [dif_pos htk]
    have htake : (d ++ optsliceMarshal t).take d.length = d := List.take_left d _
    have hdrop2 : (d ++ optsliceMarshal t).drop d.length = optsliceMarshal t :=
      List.drop_left d _
    rw [htake, hdrop2]
    rw [ih (addRaw acc c d) (fun q hq => hv q (by simp [hq]))]
    have : groupRecs ((c, d) :: t) acc = groupRecs t (addRaw acc c d) := by
      simp [groupRecs]
    rw [this]

/-- The stable insertion sort is one admissible behaviour of sort.Sort:
it returns a by-code-sorted permutation. -/
theorem sortByCode_spec : GoSortSpec sortByCode :=
  fun l => ⟨sortByCode_perm l, sortByCode_pairwise l⟩

theorem perm_eq_of_length_le_one (l1 l2 : List (Nat × Bytes))
    (hp : l1.Perm l2) (hl : l2.length ≤ 1) : l1 = l2 := by
  cases l2 with
  | nil => exact hp.eq_nil
  | cons x t =>
    cases t with
    | nil => exact List.perm_singleton.mp hp
    | cons y t2 => simp at hl

theorem filter_length_le_one_of_nodup_keys (l : List (Nat × Bytes))
    (hn : (l.map Prod.fst).Nodup) (k : Nat) :
    (l.filter (fun p => p.1 = k)).length ≤ 1 := by
  induction l with
  | nil => simp
  | cons p t ih =>
    rcases List.nodup_cons.mp hn with ⟨hp, ht⟩
    rw [List.filter_cons]
    by_cases hk : p.1 = k
    · rw [if_pos (by simp [hk])]
      have hnil : t.filter (fun q => q.1 = k) = [] := by
        rw [List.filter_eq_nil_iff]
        intro q hq hqk
        simp at hqk
        exact hp (hk ▸ hqk ▸ List.mem_map_of_mem Prod.fst hq)
      simp [hnil]
    · rw [if_neg (by simp [hk])]
      exact ih ht

theorem mem_optKeys_of_mem_flatten (o : Options) (p : Nat × Bytes)
    (h : p ∈ flattenOpts o) : p.1 ∈ optKeys o := by
  simp only [flattenOpts, List.mem_flatMap] at h
  obtain ⟨e, he, hpe⟩ := h
  simp only [List.mem_map] at hpe
  obtain ⟨v, hv, rfl⟩ := hpe
  exact List.mem_map_of_mem Prod.fst he

/-- When every key of a distinct-key map holds at most one value, the
flattened record list has pairwise-distinct codes. -/
theorem nodup_flatten_codes (o : Options) (hd : DistinctKeys o)
    (hs : ∀ p ∈ o, p.2.length ≤ 1) :
    ((flattenOpts o).map Prod.fst).Nodup := by
  induction o with
  | nil => simp [flattenOpts]
  | cons e rest ih =>
    obtain ⟨ke, vs⟩ := e
    have hdr : DistinctKeys rest := by
      unfold DistinctKeys at hd ⊢
      simpa [optKeys] using (List.nodup_cons.mp hd).2
    have hkr : ke ∉ optKeys rest := by
      unfold DistinctKeys at hd
      simpa [optKeys] using (List.nodup_cons.mp hd).1
    have hsr : ∀ p ∈ rest, p.2.length ≤ 1 := fun p hp => hs p (by simp [hp])
    rw [flattenOpts_cons, List.map_append, List.nodup_append]
    refine ⟨?_, ih hdr hsr, ?_⟩
    · have hlen := hs (ke, vs) (by simp)
      match vs, hlen with
      | [], _ => simp
      | [v], _ => simp
    · intro a ha hb
      have hake : a = ke := by
        simp only [List.map_map, List.mem_map] at ha
        obtain ⟨v, _, hv⟩ := ha
        exact hv.symm
      subst hake
      obtain ⟨q, hq, hq1⟩ := List.mem_map.mp hb
      exact hkr (hq1 ▸ mem_optKeys_of_mem_flatten rest q hq)

/-- A list with pairwise-distinct codes has a unique by-code-sorted
arrangement: any two sorted permutations of it coincide.  This is what
makes the marshaled output of a single-valued map independent of the
sort.Sort behaviour and of the map iteration order. -/
theorem sorted_perm_unique (s1 s2 l : List (Nat × Bytes))
    (h1 : s1.Pairwise keyLE) (h2 : s2.Pairwise keyLE)
    (hp1 : s1.Perm l) (hp2 : s2.Perm l)
    (hn : (l.map Prod.fst).Nodup) : s1 = s2 := by
  apply sorted_filter_ext s1 s2 h1 h2
  intro k
  have e1 : s1.filter (fun p => p.1 = k) = l.filter (fun p => p.1 = k) :=
    perm_eq_of_length_le_one _ _ (hp1.filter _)
      (filter_length_le_one_of_nodup_keys l hn k)
  have e2 : s2.filter (fun p => p.1 = k) = l.filter (fun p => p.1 = k) :=
    perm_eq_of_length_le_one _ _ (hp2.filter _)
      (filter_length_le_one_of_nodup_keys l hn k)
  rw [e1, e2]

/-- AddRaw changes the flattened records by appending the new pair, up
to permutation. -/
theorem flatten_addRaw_perm (o : Options) (k : Nat) (v : Bytes) :
    (flattenOpts (addRaw o k v)).Perm (flattenOpts o ++ [(k, v)]) := by
  induction o with
  | nil => simp [addRaw, flattenOpts]
  | cons e rest ih =>
    obtain ⟨k0, vs⟩ := e
    by_cases hk : k0 = k
    · subst hk
      have h1 : addRaw ((k0, vs) :: rest) k0 v = (k0, vs ++ [v]) :: rest := by
        simp [addRaw]
      rw [h1, flattenOpts_cons, flattenOpts_cons, List.map_append,
        List.append_assoc, List.append_assoc]
      exact List.Perm.append_left _ List.perm_append_comm
    · have h1 : addRaw ((k0, vs) :: rest) k v = (k0, vs) :: addRaw rest k v := by
        simp [addRaw, hk]
      rw [h1, flattenOpts_cons, flattenOpts_cons, List.append_assoc]
      exact List.Perm.append_left _ ih

/-- Grouping records into a map and flattening again permutes the
records. -/
theorem flatten_groupRecs_perm (recs : List (Nat × Bytes)) :
    ∀ acc : Options,
      (flattenOpts (groupRecs recs acc)).Perm (flattenOpts acc ++ recs) := by
  induction recs with
  | nil => intro acc; simp [groupRecs, flattenOpts]
  | cons p t ih =>
    intro acc
    obtain ⟨c, d⟩ := p
    have hstep : groupRecs ((c, d) :: t) acc = groupRecs t (addRaw acc c d) := by
      simp [groupRecs]
    rw [hstep]
    have h1 := ih (addRaw acc c d)
    have h2 := (flatten_addRaw_perm acc c d).append_right t
    have h3 : ((flattenOpts acc ++ [(c, d)]) ++ t).Perm
        (flattenOpts acc ++ ((c, d) :: t)) := by
      rw [List.append_assoc]
      exact List.Perm.refl _
    exact (h1.trans h2).trans h3

/-- Flattening respects permutation of the map entries: two iteration
orders of the same map flatten to permutations of each other. -/
theorem flattenOpts_perm (o1 o2 : Options) (h : o1.Perm o2) :
    (flattenOpts o1).Perm (flattenOpts o2) :=
  h.flatMap_right _

theorem mem_of_mem_optKeys (o : Options) (k : Nat) (h : k ∈ optKeys o) :
    ∃ vs, (k, vs) ∈ o := by
  obtain ⟨e, he, hk⟩ := List.mem_map.mp h
  refine ⟨e.2, ?_⟩
  rw [← hk]
  simpa using he

theorem lookupCode_eq_of_mem (o : Options) (k : Nat) (vs : List Bytes)
    (hd : DistinctKeys o) (h : (k, vs) ∈ o) : lookupCode o k = vs := by
  induction o with
  | nil => simp at h
  | cons e rest ih =>
    obtain ⟨ke, vs0⟩ := e
    have hdr : DistinctKeys rest := by
      unfold DistinctKeys at hd ⊢
      simpa [optKeys] using (List.nodup_cons.mp hd).2
    by_cases hke : ke = k
    · subst hke
      rcases List.mem_cons.mp h with hh | hh
      · injection hh with h1 h2
        simp [lookupCode, h2.symm]
      · exfalso
        have hnodup := (List.nodup_cons.mp hd).1
        simp [optKeys] at hnodup
        exact hnodup vs hh
    · rcases List.mem_cons.mp h with hh | hh
      · injection hh with h1 h2
        exact absurd h1.symm hke
      · simp [lookupCode, hke]
        exact ih hdr hh

/-- Lookup in a Go map does not depend on the iteration order: any two
entry permutations of the same distinct-key map agree on every key. -/
theorem lookupCode_perm (o1 o2 : Options) (hp : o1.Perm o2)
    (h1 : DistinctKeys o1) (k : Nat) : lookupCode o1 k = lookupCode o2 k := by
  have h2 : DistinctKeys o2 := by
    unfold DistinctKeys at h1 ⊢
    exact (hp.map Prod.fst).nodup_iff.mp h1
  by_cases hm : k ∈ optKeys o1
  · obtain ⟨vs, hvs⟩ := mem_of_mem_optKeys o1 k hm
    rw [lookupCode_eq_of_mem o1 k vs h1 hvs,
      lookupCode_eq_of_mem o2 k vs h2 (hp.mem_iff.mp hvs)]
  · have hm2 : k ∉ optKeys o2 := by
      intro hh
      exact hm ((hp.map Prod.fst).mem_iff.mpr hh)
    rw [lookupCode_eq_nil_of_not_mem o1 k hm,
      lookupCode_eq_nil_of_not_mem o2 k hm2]

/-- Every record of a well-formed map is a valid wire record. -/
theorem validRec_of_mem_flatten (o : Options)
    (hv : ∀ p ∈ o, p.1 < 65536 ∧ ∀ v ∈ p.2, v ≠ [] ∧ v.length < 65536) :
    ∀ p ∈ flattenOpts o, ValidRec p := by
  intro p hmem
  simp only [flattenOpts, List.mem_flatMap] at hmem
  obtain ⟨e, he, hpe⟩ := hmem
  simp only [List.mem_map] at hpe
  obtain ⟨v, hvv, rfl⟩ := hpe
  obtain ⟨hk, hvs⟩ := hv e he
  obtain ⟨hne, hlen⟩ := hvs v hvv
  exact ⟨hk, hne, hlen⟩

/-- The core round-trip fact, for any sort.Sort behaviour f: marshaling
a well-formed map and running the unmarshal loop yields the regrouped
record map, whose per-code value lists are permutations of the
originals; when no code holds more than one value, the lookups agree
exactly and a second marshal (under any sort.Sort behaviour g)
reproduces the first output. -/
theorem optionsRoundtrip (f : List (Nat × Bytes) → List (Nat × Bytes))
    (hf : GoSortSpec f) (o : Options) (hd : DistinctKeys o)
    (hv : ∀ p ∈ o, p.1 < 65536 ∧ ∀ v ∈ p.2, v ≠ [] ∧ v.length < 65536) :
    optionsUnmarshal (optionsMarshalWith f o) =
      .ok (groupRecs (enumerateWith f o) []) ∧
    (∀ k, (lookupCode (groupRecs (enumerateWith f o) []) k).Perm
      (lookupCode o k)) ∧
    ((∀ p ∈ o, p.2.length ≤ 1) →
      (∀ k, lookupCode (groupRecs (enumerateWith f o) []) k = lookupCode o k) ∧
      ∀ g, GoSortSpec g →
        optionsMarshalWith g (groupRecs (enumerateWith f o) []) =
          optionsMarshalWith f o) := by
  have hperm : (f (flattenOpts o)).Perm (flattenOpts o) := (hf _).1
  have hsorted : (f (flattenOpts o)).Pairwise keyLE := (hf _).2
  have hvr : ∀ p ∈ f (flattenOpts o), ValidRec p := fun p hp =>
    validRec_of_mem_flatten o hv p (hperm.mem_iff.mp hp)
  simp only [optionsMarshalWith, enumerateWith]
  refine ⟨?_, ?_, ?_⟩
  · show optionsUnmarshalLoop (optsliceMarshal (f (flattenOpts o))) [] = _
    exact unmarshalLoop_marshal _ [] hvr
  · intro k
    rw [lookupCode_groupRecs]
    have h0 : lookupCode [] k = [] := rfl
    rw [h0, List.nil_append]
    have h1 : ((f (flattenOpts o)).filter (fun p => p.1 = k)).Perm
        ((flattenOpts o).filter (fun p => p.1 = k)) := hperm.filter _
    have h3 := h1.map Prod.snd
    rw [filter_flattenOpts o k hd] at h3
    simpa using h3
  · intro hs
    have hnodup := nodup_flatten_codes o hd hs
    have hfeq : ∀ k, (f (flattenOpts o)).filter (fun p => p.1 = k) =
        (flattenOpts o).filter (fun p => p.1 = k) := fun k =>
      perm_eq_of_length_le_one _ _ (hperm.filter _)
        (filter_length_le_one_of_nodup_keys _ hnodup k)
    constructor
    · intro k
      rw [lookupCode_groupRecs]
      have h0 : lookupCode [] k = [] := rfl
      rw [h0, List.nil_append, hfeq k, filter_flattenOpts o k hd,
        List.map_map]
      simp
    · intro g hg
      show optsliceMarshal
          (g (flattenOpts (groupRecs (f (flattenOpts o)) []))) =
        optsliceMarshal (f (flattenOpts o))
      congr 1
      have hflat2 : (flattenOpts (groupRecs (f (flattenOpts o)) [])).Perm
          (f (flattenOpts o)) := by
        have h := flatten_groupRecs_perm (f (flattenOpts o)) []
        simpa [flattenOpts] using h
      exact sorted_perm_unique _ _ (flattenOpts o) (hg _).2 hsorted
        (((hg _).1.trans hflat2).trans hperm) hperm hnodup

/-! Claim C1: options marshal/unmarshal round-trip. -/

/-- C1, counterexample: for the map holding one zero-length value under
code 14 (Rapid Commit), marshaling (here under the small-slice
behaviour of sort.Sort, which any sorted permutation of a one-element
slice coincides with) emits a zero-length header, which unmarshal
skips, so the round-trip loses the option and does not return the
original map. -/
theorem claim_C1_counterexample :
    optionsMarshalWith goSortSmall [(14, [[]])] = [0, 14, 0, 0] ∧
    optionsUnmarshal (optionsMarshalWith goSortSmall [(14, [[]])]) = .ok [] ∧
    lookupCode [(14, [[]])] 14 ≠ lookupCode [] 14 := by
  refine ⟨by decide, ?_, by decide⟩
  have h : optionsMarshalWith goSortSmall [(14, [([] : Bytes)])] =
      [0, 14, 0, 0] := by decide
  rw [h]
  simp [optionsUnmarshal, optionsUnmarshalLoop, u16at]

/-- C1, amended: for every sort.Sort behaviour f (any by-code-sorted
permutation, stability not assumed) and every Options map with distinct
keys whose codes fit in 16 bits and whose values are all nonempty and
shorter than 65536 bytes, unmarshaling the marshaled bytes succeeds
with a map whose value list under every code is a permutation of the
original list; when additionally no code holds more than one value, the
two maps agree exactly on every lookup and the marshal output is
idempotent: re-marshaling the result under any sort.Sort behaviour g
reproduces the bytes. -/
theorem claim_C1 (f : List (Nat × Bytes) → List (Nat × Bytes))
    (hf : GoSortSpec f) (o : Options) (hd : DistinctKeys o)
    (hv : ∀ p ∈ o, p.1 < 65536 ∧ ∀ v ∈ p.2, v ≠ [] ∧ v.length < 65536) :
    ∃ o2, optionsUnmarshal (optionsMarshalWith f o) = .ok o2 ∧
      (∀ k, (lookupCode o2 k).Perm (lookupCode o k)) ∧
      ((∀ p ∈ o, p.2.length ≤ 1) →
        (∀ k, lookupCode o2 k = lookupCode o k) ∧
        ∀ g, GoSortSpec g →
          optionsMarshalWith g o2 = optionsMarshalWith f o) := by
  obtain ⟨h1, h2, h3⟩ := optionsRoundtrip f hf o hd hv
  exact ⟨groupRecs (enumerateWith f o) [], h1, h2, h3⟩

theorem claim_C1_witness :
    ∃ o2,
      optionsUnmarshal
          (optionsMarshalWith sortByCode [(3, [[7, 8]]), (1, [[9], [4, 5]])]) =
        .ok o2 ∧
      (∀ k, (lookupCode o2 k).Perm
        (lookupCode [(3, [[7, 8]]), (1, [[9], [4, 5]])] k)) ∧
      ((∀ p ∈ ([(3, [[7, 8]]), (1, [[9], [4, 5]])] : Options),
          p.2.length ≤ 1) →
        (∀ k, lookupCode o2 k =
          lookupCode [(3, [[7, 8]]), (1, [[9], [4, 5]])] k) ∧
        ∀ g, GoSortSpec g → optionsMarshalWith g o2 =
          optionsMarshalWith sortByCode [(3, [[7, 8]]), (1, [[9], [4, 5]])]) :=
  claim_C1 sortByCode sortByCode_spec [(3, [[7, 8]]), (1, [[9], [4, 5]])]
    (by decide) (by decide)

/-! Claim C2: zero-length options during unmarshal. -/

/-- C2, counterexample: unmarshaling a lone zero-length header for code
14 (Rapid Commit) succeeds with the empty map; the code is not
recorded, so presence is not preserved. -/
theorem claim_C2_counterexample :
    optionsUnmarshal [0, 14, 0, 0] = .ok [] ∧ 14 ∉ optKeys ([] : Options) := by
  refine ⟨?_, by decide⟩
  simp [optionsUnmarshal, optionsUnmarshalLoop, u16at]

/-- C2, amended: whenever the unmarshal loop reads an option header
whose length field is zero, it skips the header entirely and continues
with the remaining bytes and an unchanged map; the option code is not
recorded. -/
theorem claim_C2 (b : Bytes) (o : Options) (h4 : 4 ≤ b.length)
    (hz : u16at b 2 = 0) :
    optionsUnmarshalLoop b o = optionsUnmarshalLoop (b.drop 4) o := by
  rw [optionsUnmarshalLoop, dif_pos h4, if_pos hz]

theorem claim_C2_witness :
    optionsUnmarshalLoop [0, 14, 0, 0] [] = optionsUnmarshalLoop [] [] :=
  claim_C2 [0, 14, 0, 0] [] (by decide) (by decide)

/-! Claim C6: deterministic, code-sorted marshaling. -/

/-- C6, counterexample: with a multi-valued code and seven flattened
options, the actual small-slice algorithm of sort.Sort (gap-6 shell
pass then insertion sort) reorders the values under code 5 away from
their insertion order for the iteration order that lists code 9 first,
and the two iteration orders of the same map marshal to different byte
strings, refuting both the insertion-order clause and two-run
determinism. -/
theorem claim_C6_counterexample :
    List.Perm
      ([(9, [[90]]), (1, [[10], [11], [12]]), (5, [[50], [51], [52]])] :
        Options)
      [(1, [[10], [11], [12]]), (5, [[50], [51], [52]]), (9, [[90]])] ∧
    DistinctKeys
      ([(9, [[90]]), (1, [[10], [11], [12]]), (5, [[50], [51], [52]])] :
        Options) ∧
    ((enumerateWith goSortSmall
        [(9, [[90]]), (1, [[10], [11], [12]]), (5, [[50], [51], [52]])]).filter
          (fun p => p.1 = 5)).map Prod.snd ≠
      lookupCode
        [(9, [[90]]), (1, [[10], [11], [12]]), (5, [[50], [51], [52]])] 5 ∧
    optionsMarshalWith goSortSmall
        [(9, [[90]]), (1, [[10], [11], [12]]), (5, [[50], [51], [52]])] ≠
      optionsMarshalWith goSortSmall
        [(1, [[10], [11], [12]]), (5, [[50], [51], [52]]), (9, [[90]])] := by
  decide

/-- C6, amended: every run of marshaling enumerates every (code, value)
pair and emits a by-code ascending sorted permutation of them; but
sort.Sort is not stable, so values under the same code are not
guaranteed to keep their insertion order, and two runs over the same
map are guaranteed to produce identical byte strings only when no code
holds more than one value: then the sorted sequence is unique, so the
output does not depend on the sort.Sort behaviour or on the map
iteration order. -/
theorem claim_C6 :
    (∀ (f : List (Nat × Bytes) → List (Nat × Bytes)), GoSortSpec f →
      ∀ o : Options, (enumerateWith f o).Perm (flattenOpts o) ∧
        (enumerateWith f o).Pairwise keyLE) ∧
    (∀ (f g : List (Nat × Bytes) → List (Nat × Bytes)),
      GoSortSpec f → GoSortSpec g →
      ∀ o1 o2 : Options, DistinctKeys o1 → (∀ p ∈ o1, p.2.length ≤ 1) →
        o1.Perm o2 → optionsMarshalWith f o1 = optionsMarshalWith g o2) := by
  constructor
  · intro f hf o
    exact ⟨(hf _).1, (hf _).2⟩
  · intro f g hf hg o1 o2 hd hs hp
    have hnodup := nodup_flatten_codes o1 hd hs
    show optsliceMarshal (f (flattenOpts o1)) =
      optsliceMarshal (g (flattenOpts o2))
    congr 1
    exact sorted_perm_unique _ _ (flattenOpts o1) (hf _).2 (hg _).2
      (hf _).1 ((hg _).1.trans (flattenOpts_perm o2 o1 hp.symm)) hnodup

theorem claim_C6_witness :
    ((enumerateWith sortByCode [(2, [[5]]), (1, [[1], [2]])]).Perm
        (flattenOpts [(2, [[5]]), (1, [[1], [2]])]) ∧
      (enumerateWith sortByCode [(2, [[5]]), (1, [[1], [2]])]).Pairwise
        keyLE) ∧
    optionsMarshalWith sortByCode [(2, [[5]]), (1, [[9]])] =
      optionsMarshalWith sortByCode [(1, [[9]]), (2, [[5]])] :=
  ⟨claim_C6.1 sortByCode sortByCode_spec _,
    claim_C6.2 sortByCode sortByCode sortByCode_spec sortByCode_spec
      [(2, [[5]]), (1, [[9]])] [(1, [[9]]), (2, [[5]])]
      (by decide) (by decide) (by decide)⟩

/-! Claim C3: DUID parse dispatch. -/

/-- C3, counterexample: an 18-byte input with leading tag 4 does not
parse as a DUID-UUID; parseDUID in src/duid.go has no case for tag 4
and fails with errUnknownDUID. -/
theorem claim_C3_counterexample :
    parseDUID ([0, 4] ++ List.replicate 16 0) = .error .unknownDUID := rfl

/-- C3, amended: parseDUID fails with errInvalidDUID on fewer than 2
bytes; dispatches tags 1, 2, 3 to the DUID-LLT, DUID-EN and DUID-LL
parsers with minimum lengths 8, 6 and 4, failing with the variant error
below the minimum and succeeding at or above it; every other tag,
including 4 (DUID-UUID is not implemented), fails with
errUnknownDUID. -/
theorem claim_C3 (b : Bytes) :
    (b.length < 2 → parseDUID b = .error .invalidDUID) ∧
    (2 ≤ b.length → u16at b 0 ≠ 1 → u16at b 0 ≠ 2 → u16at b 0 ≠ 3 →
      parseDUID b = .error .unknownDUID) ∧
    (u16at b 0 = 1 →
      (2 ≤ b.length → b.length < 8 → parseDUID b = .error .invalidDUIDLLT) ∧
      (8 ≤ b.length →
        parseDUID b = .ok (.llt (u16at b 2) (u32at b 4) (b.drop 8)))) ∧
    (u16at b 0 = 2 →
      (2 ≤ b.length → b.length < 6 → parseDUID b = .error .invalidDUIDEN) ∧
      (6 ≤ b.length →
        parseDUID b = .ok (.en (u32at b 2) (b.drop 6)))) ∧
    (u16at b 0 = 3 →
      (2 ≤ b.length → b.length < 4 → parseDUID b = .error .invalidDUIDLL) ∧
      (4 ≤ b.length →
        parseDUID b = .ok (.ll (u16at b 2) (b.drop 4)))) := by
  refine ⟨?_, ?_, ?_, ?_, ?_⟩
  · intro hlen
    simp [parseDUID, hlen]
  · intro hlen h1 h2 h3
    rw [parseDUID, if_neg (by omega), if_neg h1, if_neg h2, if_neg h3]
  · intro htag
    constructor
    · intro h2 hlen
      rw [parseDUID, if_neg (by omega), if_pos htag]
      simp [parseDUIDLLT, hlen]
    · intro hlen
      rw [parseDUID, if_neg (by omega), if_pos htag]
      rw [parseDUIDLLT, if_neg (by omega), if_neg (by omega)]
  · intro htag
    constructor
    · intro h2 hlen
      rw [parseDUID, if_neg (by omega), if_neg (by omega), if_pos htag]
      simp [parseDUIDEN, hlen]
    · intro hlen
      rw [parseDUID, if_neg (by omega), if_neg (by omega), if_pos htag]
      rw [parseDUIDEN, if_neg (by omega), if_neg (by omega)]
  · intro htag
    constructor
    · intro h2 hlen
      rw [parseDUID, if_neg (by omega), if_neg (by omega), if_neg (by omega),
        if_pos htag]
      simp [parseDUIDLL, hlen]
    · intro hlen
      rw [parseDUID, if_neg (by omega), if_neg (by omega), if_neg (by omega),
        if_pos htag]
      rw [parseDUIDLL, if_neg (by omega), if_neg (by omega)]

theorem claim_C3_witness :
    parseDUID [9] = .error .invalidDUID ∧
    parseDUID [0, 9] = .error .unknownDUID ∧
    parseDUID [0, 1, 0] = .error .invalidDUIDLLT ∧
    parseDUID [0, 1, 0, 1, 0, 0, 0, 60, 9, 9] =
      .ok (.llt 1 60 [9, 9]) ∧
    parseDUID [0, 2, 0, 0] = .error .invalidDUIDEN ∧
    parseDUID [0, 2, 0, 0, 0, 100, 7] = .ok (.en 100 [7]) ∧
    parseDUID [0, 3, 0] = .error .invalidDUIDLL ∧
    parseDUID [0, 3, 0, 1, 5, 6] = .ok (.ll 1 [5, 6]) :=
  ⟨(claim_C3 [9]).1 (by decide),
    (claim_C3 [0, 9]).2.1 (by decide) (by decide) (by decide) (by decide),
    ((claim_C3 [0, 1, 0]).2.2.1 (by decide)).1 (by decide) (by decide),
    ((claim_C3 [0, 1, 0, 1, 0, 0, 0, 60, 9, 9]).2.2.1 (by decide)).2 (by decide),
    ((claim_C3 [0, 2, 0, 0]).2.2.2.1 (by decide)).1 (by decide) (by decide),
    ((claim_C3 [0, 2, 0, 0, 0, 100, 7]).2.2.2.1 (by decide)).2 (by decide),
    ((claim_C3 [0, 3, 0]).2.2.2.2 (by decide)).1 (by decide) (by decide),
    ((claim_C3 [0, 3, 0, 1, 5, 6]).2.2.2.2 (by decide)).2 (by decide)⟩

/-! Claim C4: Packet unmarshal error behaviour. -/

/-- C4: packet unmarshal fails with InvalidPacket on inputs shorter
than 4 bytes, and fails with InvalidPacket whenever decoding the
options region after the 4-byte header fails; in particular on the
input 0,0,0,0,0,1,0,1, whose options region declares length 1 but
supplies no data bytes. -/
theorem claim_C4 (b : Bytes) :
    (b.length < 4 → packetUnmarshal b = .error .invalidPacket) ∧
    (∀ e, optionsUnmarshal (b.drop 4) = .error e →
      packetUnmarshal b = .error .invalidPacket) ∧
    packetUnmarshal [0, 0, 0, 0, 0, 1, 0, 1] = .error .invalidPacket := by
  refine ⟨?_, ?_, ?_⟩
  · intro hlen
    simp [packetUnmarshal, hlen]
  · intro e he
    by_cases hlen : b.length < 4
    · simp [packetUnmarshal, hlen]
    · rw [packetUnmarshal, if_neg hlen, he]
  · simp [packetUnmarshal, optionsUnmarshal, optionsUnmarshalLoop, u16at]

theorem claim_C4_witness :
    packetUnmarshal [0, 0, 0] = .error .invalidPacket ∧
    packetUnmarshal [0, 0, 0, 0, 0, 1, 0, 1] = .error .invalidPacket :=
  ⟨(claim_C4 [0, 0, 0]).1 (by decide),
    (claim_C4 [0, 0, 0, 0, 0, 1, 0, 1]).2.2⟩

/-! Claim C5: lifetime ordering law for IAAddr and IAPrefix. -/

/-- C5, counterexample: the raw-slice parseIAAddr generation
(src/unnamed/part_003 line 135, src/iaaddr.go line 93) performs no
lifetime check: it accepts a 24-byte body whose preferred lifetime (2
seconds) exceeds its valid lifetime (1 second) instead of failing with
a lifetimes error. -/
theorem claim_C5_counterexample :
    u32at (List.replicate 16 0 ++ u32be 2 ++ u32be 1) 16 = 2 ∧
    u32at (List.replicate 16 0 ++ u32be 2 ++ u32be 1) 20 = 1 ∧
    parseIAAddrRawSlice (List.replicate 16 0 ++ u32be 2 ++ u32be 1) =
      .ok (List.replicate 16 0 ++ u32be 2 ++ u32be 1, []) := by
  refine ⟨by decide, by decide, ?_⟩
  simp [parseIAAddrRawSlice, parseOptionsTolerant, parseOptionsList, u32be]

/-- C5, amended: constructing an IAAddr (NewIAAddr) or an IAPrefix
(NewIAPrefix) with preferred greater than valid fails with the
lifetimes error, and so does parsing an IAPrefix (parseIAPrefix) or an
IAAddr through the struct-generation parseIAAddr of
src/unnamed/part_001; the raw-slice parseIAAddr generation does not
enforce the invariant. -/
theorem claim_C5 :
    (∀ (ip : Bytes) (preferred valid : Nat) (opts : Options),
      ip.length = 16 → valid < preferred →
      NewIAAddr ip preferred valid opts = .error .invalidIAAddrLifetimes) ∧
    (∀ (preferred valid plen : Nat) (prefixAddr : Bytes) (opts : Options),
      valid < preferred →
      NewIAPrefix preferred valid plen prefixAddr opts =
        .error .invalidLifetimes) ∧
    (∀ b : Bytes, 25 ≤ b.length → u32at b 4 < u32at b 0 →
      parseIAPrefix b = .error .invalidLifetimes) ∧
    (∀ b : Bytes, 24 ≤ b.length → u32at b 20 < u32at b 16 →
      parseIAAddr b = .error .invalidIAAddrLifetimes) := by
  refine ⟨?_, ?_, ?_, ?_⟩
  · intro ip preferred valid opts hip hlt
    rw [NewIAAddr, if_neg (by omega), if_pos hlt]
  · intro preferred valid plen prefixAddr opts hlt
    rw [NewIAPrefix, if_pos hlt]
  · intro b hlen hlt
    rw [parseIAPrefix, if_neg (by omega), if_pos hlt]
  · intro b hlen hlt
    rw [parseIAAddr, if_neg (by omega), if_pos hlt]

theorem claim_C5_witness :
    NewIAAddr (List.replicate 16 0) 2000000000 1000000000 [] =
      .error .invalidIAAddrLifetimes ∧
    NewIAPrefix 2000000000 1000000000 64 (List.replicate 16 0) [] =
      .error .invalidLifetimes ∧
    parseIAPrefix (u32be 2 ++ u32be 1 ++ [64] ++ List.replicate 16 0) =
      .error .invalidLifetimes ∧
    parseIAAddr (List.replicate 16 0 ++ u32be 2 ++ u32be 1) =
      .error .invalidIAAddrLifetimes :=
  ⟨claim_C5.1 (List.replicate 16 0) 2000000000 1000000000 [] (by decide)
      (by decide),
    claim_C5.2.1 2000000000 1000000000 64 (List.replicate 16 0) [] (by decide),
    claim_C5.2.2.1 (u32be 2 ++ u32be 1 ++ [64] ++ List.replicate 16 0)
      (by decide) (by decide),
    claim_C5.2.2.2 (List.replicate 16 0 ++ u32be 2 ++ u32be 1)
      (by decide) (by decide)⟩

/-! Claim C7: ElapsedTime codec. -/

/-- C7: ElapsedTime unmarshal succeeds exactly on 2-byte inputs and
fails with the unexpected-EOF error on every other length; the
big-endian value counts hundredths of a second and is stored as value
times 10 milliseconds; marshal converts a stored duration of k
hundredths back to the 16-bit value k modulo 65536 (wrap at the 16-bit
maximum) in big-endian form. -/
theorem claim_C7 :
    (∀ b : Bytes,
      (elapsedTimeUnmarshal b = .error .unexpectedEOF ↔ b.length ≠ 2)) ∧
    (∀ b0 b1 : Nat, elapsedTimeUnmarshal [b0, b1] =
      .ok (((b0 * 256 + b1 : Nat) : Int) * 10 * 1000000)) ∧
    (∀ k : Nat,
      elapsedTimeMarshal ((k : Int) * 10 * 1000000) = u16be (k % 65536)) := by
  refine ⟨?_, ?_, ?_⟩
  · intro b
    constructor
    · intro h hc
      rw [elapsedTimeUnmarshal, if_pos hc] at h
      exact Except.noConfusion h
    · intro h
      rw [elapsedTimeUnmarshal, if_neg h]
  · intro b0 b1
    simp [elapsedTimeUnmarshal, u16at, List.getD]
  · intro k
    have hval : Int.tdiv (Int.tdiv ((k : Int) * 10 * 1000000) 10) 1000000 =
        (k : Int) := by
      have h1 : ((k : Int) * 10 * 1000000) = 10 * ((k : Int) * 1000000) := by
        ring
      rw [h1, Int.mul_tdiv_cancel_left _ (by norm_num)]
      have h2 : ((k : Int) * 1000000) = 1000000 * (k : Int) := by ring
      rw [h2, Int.mul_tdiv_cancel_left _ (by norm_num)]
    rw [elapsedTimeMarshal, hval]
    have h3 : goUint16OfInt (k : Int) = k % 65536 := by
      show ((k : Int) % 65536).toNat = k % 65536
      omega
    rw [h3]

theorem claim_C7_witness :
    elapsedTimeUnmarshal [1, 2, 3] = .error .unexpectedEOF ∧
    elapsedTimeUnmarshal [3, 182] =
      .ok (((3 * 256 + 182 : Nat) : Int) * 10 * 1000000) ∧
    elapsedTimeMarshal (((65537 : Nat) : Int) * 10 * 1000000) =
      u16be (65537 % 65536) :=
  ⟨(claim_C7.1 [1, 2, 3]).mpr (by decide), claim_C7.2.1 3 182,
    claim_C7.2.2 65537⟩

/-! Claim C8: interface filtering in the serve loop. -/

/-- C8: the serve loop never dispatches a datagram whose control
message reports an interface index different from the configured one:
no dispatched event carries such a control message, and an event with a
mismatched index is dropped while the loop continues with the remaining
events. -/
theorem claim_C8 :
    (∀ (ifIndex : Nat) (evs : List ReadEvent) (e : ReadEvent),
      e ∈ Serve ifIndex evs → ∀ i, e.cm = some i → i = ifIndex) ∧
    (∀ (ifIndex : Nat) (e : ReadEvent) (rest : List ReadEvent) (i : Nat),
      e.isErr = false → e.cm = some i → i ≠ ifIndex →
      Serve ifIndex (e :: rest) = Serve ifIndex rest) := by
  constructor
  · intro ifIndex evs
    induction evs with
    | nil =>
      intro e he
      simp [Serve] at he
    | cons e0 rest ih =>
      intro e he i hcm
      rw [Serve] at he
      by_cases herr : e0.isErr
      · rw [if_pos herr] at he
        simp at he
      · rw [if_neg herr] at he
        by_cases hdrop : dropEvent ifIndex e0
        · rw [if_pos hdrop] at he
          exact ih e he i hcm
        · rw [if_neg hdrop] at he
          rcases List.mem_cons.mp he with hh | hh
          · subst hh
            rw [dropEvent, hcm] at hdrop
            simpa using hdrop
          · exact ih e hh i hcm
  · intro ifIndex e rest i herr hcm hne
    rw [Serve, if_neg (by simp [herr]),
      if_pos (by rw [dropEvent, hcm]; simpa using hne)]

theorem claim_C8_witness :
    ((⟨false, some 3, [1, 2]⟩ : ReadEvent) ∈
        Serve 7 [⟨false, some 3, [1, 2]⟩, ⟨false, some 7, [3]⟩] →
      ∀ i, (⟨false, some 3, [1, 2]⟩ : ReadEvent).cm = some i → i = 7) ∧
    Serve 7 [⟨false, some 3, [1, 2]⟩, ⟨false, some 7, [3]⟩] =
      Serve 7 [⟨false, some 7, [3]⟩] :=
  ⟨fun hmem => claim_C8.1 7 _ _ hmem,
    claim_C8.2 7 ⟨false, some 3, [1, 2]⟩ [⟨false, some 7, [3]⟩] 3 rfl rfl
      (by decide)⟩

/-! Claim C9: failed buffer reads leave the buffer unchanged. -/

/-- C9: consuming more bytes than remain fails and leaves the buffer
unchanged, and each fixed-width read on a buffer with too few bytes
returns zero with the buffer state unchanged. -/
theorem claim_C9 (b : buffer) (n : Nat) :
    (b.data.length < n → b.consume n = (none, b)) ∧
    (b.data.length < 1 → b.Read8 = (0, b)) ∧
    (b.data.length < 2 → b.Read16 = (0, b)) ∧
    (b.data.length < 4 → b.Read32 = (0, b)) ∧
    (b.data.length < 8 → b.Read64 = (0, b)) := by
  refine ⟨?_, ?_, ?_, ?_, ?_⟩
  · intro h
    rw [buffer.consume, if_neg (by omega)]
  · intro h
    have hc : b.consume 1 = (none, b) := by
      rw [buffer.consume, if_neg (by omega)]
    rw [buffer.Read8, hc]
  · intro h
    have hc : b.consume 2 = (none, b) := by
      rw [buffer.consume, if_neg (by omega)]
    rw [buffer.Read16, hc]
  · intro h
    have hc : b.consume 4 = (none, b) := by
      rw [buffer.consume, if_neg (by omega)]
    rw [buffer.Read32, hc]
  · intro h
    have hc : b.consume 8 = (none, b) := by
      rw [buffer.consume, if_neg (by omega)]
    rw [buffer.Read64, hc]

theorem claim_C9_witness :
    (buffer.mk [5]).consume 2 = (none, buffer.mk [5]) ∧
    (buffer.mk []).Read8 = (0, buffer.mk []) ∧
    (buffer.mk [5]).Read16 = (0, buffer.mk [5]) ∧
    (buffer.mk [5, 6]).Read32 = (0, buffer.mk [5, 6]) ∧
    (buffer.mk [5, 6, 7]).Read64 = (0, buffer.mk [5, 6, 7]) :=
  ⟨(claim_C9 (buffer.mk [5]) 2).1 (by decide),
    (claim_C9 (buffer.mk []) 0).2.1 (by decide),
    (claim_C9 (buffer.mk [5]) 0).2.2.1 (by decide),
    (claim_C9 (buffer.mk [5, 6]) 0).2.2.2.1 (by decide),
    (claim_C9 (buffer.mk [5, 6, 7]) 0).2.2.2.2 (by decide)⟩

/-! Claim C10: StatusCode parse acceptance. -/

/-- C10, counterexample: Status is a Go uint16, so the Status(-1)
sentinel is the in-band value 65535; a parsed StatusCode whose first
two bytes are 0xff 0xff is accepted and its Code() equals the
sentinel value. -/
theorem claim_C10_counterexample :
    parseStatusCode [255, 255] = .ok [255, 255] ∧
    statusCodeCode [255, 255] = goUint16OfInt (-1) := by
  exact ⟨rfl, by decide⟩

/-- C10, amended: every StatusCode value accepted by parseStatusCode is
at least 2 bytes long; on such values Code() reads the status from the
first two bytes (the short-input branch returning the Status(-1)
sentinel is never taken) and the slice expression of Message() is in
bounds.  Because Status is a uint16, the sentinel equals 65535 and is
returned whenever the first two bytes encode that value. -/
theorem claim_C10 (b s : Bytes) (h : parseStatusCode b = .ok s) :
    s = b ∧ 2 ≤ s.length ∧ statusCodeCode s = u16at s 0 ∧
    statusCodeMessage s = s.drop 2 := by
  rw [parseStatusCode] at h
  by_cases hlen : b.length < 2
  · rw [if_pos hlen] at h
    exact Except.noConfusion h
  · rw [if_neg hlen] at h
    have hb : b = s := by
      injection h
    subst hb
    refine ⟨rfl, by omega, ?_, rfl⟩
    rw [statusCodeCode, if_neg hlen]

theorem claim_C10_witness :
    [0, 5, 97] = ([0, 5, 97] : Bytes) ∧ 2 ≤ ([0, 5, 97] : Bytes).length ∧
    statusCodeCode [0, 5, 97] = u16at [0, 5, 97] 0 ∧
    statusCodeMessage [0, 5, 97] = ([0, 5, 97] : Bytes).drop 2 :=
  claim_C10 [0, 5, 97] [0, 5, 97] rfl
